import Mathlib

/-!
Shallow embedding of the spanned library (src/span.rs, src/error.rs,
src/error/context.rs): byte spans into source files, span-preserving string
operations on located values, and the chained diagnostic error type with its
rendering into an annotated document.

Modelling conventions:
- strings are lists of Unicode scalar values (List Char); byte positions and
  lengths are computed from each character's UTF-8 encoded size, matching
  Rust's byte-indexed str operations on valid UTF-8;
- u32 arithmetic that can trap (u32::try_from(..).unwrap(), debug-mode
  overflow / underflow, a failed assert!) is modelled with Option: none is a
  panic of the Rust code;
- file paths are plain strings (PathBuf display), and the file system is an
  explicit environment function passed to the operations that read files.
-/

def U32_MAX : Nat := 4294967295

/-- UTF-8 encoded size of a character (Rust char::len_utf8). -/
def charUtf8Size (c : Char) : Nat :=
  if c.toNat ≤ 0x7F then 1
  else if c.toNat ≤ 0x7FF then 2
  else if c.toNat ≤ 0xFFFF then 3
  else 4

/-- Byte length of a string (Rust str::len). -/
def utf8Len : List Char → Nat
  | [] => 0
  | c :: cs => charUtf8Size c + utf8Len cs

/-- A span: a half-open byte range bytes.start..bytes.end (two u32 values) in
one file (span.rs, struct Span). -/
structure Span where
  file : String
  bytes_start : Nat
  bytes_end : Nat
deriving DecidableEq

/-- impl Default for Span: empty path, u32::MAX..u32::MAX. -/
def Span.default : Span :=
  { file := "", bytes_start := U32_MAX, bytes_end := U32_MAX }

/-- The derived PartialEq for Span: structural comparison of the path and
both offsets. -/
def Span.beq (a b : Span) : Bool :=
  a.file == b.file && a.bytes_start == b.bytes_start && a.bytes_end == b.bytes_end

/-- Span::is_dummy. -/
def Span.is_dummy (s : Span) : Bool :=
  s.bytes_start == U32_MAX && s.bytes_end == U32_MAX

/-- Span::dec_col_end: new = bytes.end - amount (u32), assert!(start <= new),
set bytes.end = new. none when u32::try_from(amount) fails, the subtraction
underflows, or the assert fires. -/
def Span.dec_col_end (s : Span) (amount : Nat) : Option Span :=
  if U32_MAX < amount then none
  else if s.bytes_end < amount then none
  else if s.bytes_start ≤ s.bytes_end - amount then
    some { s with bytes_end := s.bytes_end - amount }
  else none

/-- Span::inc_col_start: new = bytes.start + amount (u32),
assert!(new <= end), set bytes.start = new. none when u32::try_from(amount)
fails, the addition overflows, or the assert fires. -/
def Span.inc_col_start (s : Span) (amount : Nat) : Option Span :=
  if U32_MAX < amount then none
  else if U32_MAX < s.bytes_start + amount then none
  else if s.bytes_start + amount ≤ s.bytes_end then
    some { s with bytes_start := s.bytes_start + amount }
  else none

/-- Span::set_col_end_relative_to_start: new = bytes.start + amount (u32),
assert!(new <= end), set bytes.end = new. -/
def Span.set_col_end_relative_to_start (s : Span) (amount : Nat) : Option Span :=
  if U32_MAX < amount then none
  else if U32_MAX < s.bytes_start + amount then none
  else if s.bytes_start + amount ≤ s.bytes_end then
    some { s with bytes_end := s.bytes_start + amount }
  else none

/-- Span::shrink_to_end. -/
def Span.shrink_to_end (s : Span) : Span := { s with bytes_start := s.bytes_end }

/-- Span::shrink_to_start. -/
def Span.shrink_to_start (s : Span) : Span := { s with bytes_end := s.bytes_start }

/-- A value paired with the span of the source text it came from
(span.rs, struct Spanned). -/
structure Spanned (T : Type) where
  span : Span
  content : T
deriving DecidableEq

/-- Spanned::map: apply f to the content, keep the span. -/
def Spanned.map {T U : Type} (s : Spanned T) (f : T → U) : Spanned U :=
  { span := s.span, content := f s.content }

/-! String operations of Spanned over str content. -/

/-- Rust str::split_once at the first occurrence of the delimiter substring:
some (before, after) with the delimiter removed, none when the delimiter does
not occur. An empty delimiter matches at the front. -/
def strSplitOnce (l d : List Char) : Option (List Char × List Char) :=
  if d.isPrefixOf l then some ([], l.drop d.length)
  else
    match l with
    | [] => none
    | c :: rest => (strSplitOnce rest d).map fun p => (c :: p.1, p.2)

/-- Spanned::split_once (span.rs: the left span is the input span with
dec_col_end(b.len()), the right one with inc_col_start(a.len() + 1)). -/
def Spanned.split_once (s : Spanned (List Char)) (delimiter : List Char) :
    Option (Spanned (List Char) × Spanned (List Char)) := do
  let (a, b) ← strSplitOnce s.content delimiter
  let spanA ← s.span.dec_col_end (utf8Len b)
  let spanB ← s.span.inc_col_start (utf8Len a + 1)
  some (⟨spanA, a⟩, ⟨spanB, b⟩)

/-- Rust str::split_at at byte position pos: some (before, after), none when
pos is not a char boundary of the string or is past its end (a panic). -/
def splitAtBytePos (l : List Char) (pos : Nat) : Option (List Char × List Char) :=
  if pos = 0 then some ([], l)
  else
    match l with
    | [] => none
    | c :: rest =>
      if pos < charUtf8Size c then none
      else (splitAtBytePos rest (pos - charUtf8Size c)).map fun p => (c :: p.1, p.2)

/-- pos is a char boundary of l, not past its end (Rust str::is_char_boundary
together with pos <= len). -/
def isCharBoundary (l : List Char) (pos : Nat) : Bool :=
  if pos = 0 then true
  else
    match l with
    | [] => false
    | c :: rest =>
      if pos < charUtf8Size c then false
      else isCharBoundary rest (pos - charUtf8Size c)

/-- Spanned::split_at (span.rs: the left span is
set_col_end_relative_to_start(n), the right one inc_col_start(n), with
n = a.len()). -/
def Spanned.split_at (s : Spanned (List Char)) (pos : Nat) :
    Option (Spanned (List Char) × Spanned (List Char)) := do
  let (a, b) ← splitAtBytePos s.content pos
  let n := utf8Len a
  let spanA ← s.span.set_col_end_relative_to_start n
  let spanB ← s.span.inc_col_start n
  some (⟨spanA, a⟩, ⟨spanB, b⟩)

/-- Rust char::is_whitespace: the Unicode White_Space property. -/
def rustIsWhitespace (c : Char) : Bool :=
  let n := c.toNat
  (0x09 ≤ n && n ≤ 0x0D) || n == 0x20 || n == 0x85 || n == 0xA0 ||
  n == 0x1680 || (0x2000 ≤ n && n ≤ 0x200A) || n == 0x2028 || n == 0x2029 ||
  n == 0x202F || n == 0x205F || n == 0x3000

/-- Rust str::trim_end: the string without trailing whitespace. -/
def trimEndChars (l : List Char) : List Char :=
  (l.reverse.dropWhile rustIsWhitespace).reverse

/-- Spanned::trim_start: drop leading whitespace and advance the span start
by the number of removed bytes. -/
def Spanned.trim_start (s : Spanned (List Char)) : Option (Spanned (List Char)) :=
  match s.span.inc_col_start
      (utf8Len s.content - utf8Len (s.content.dropWhile rustIsWhitespace)) with
  | none => none
  | some span => some ⟨span, s.content.dropWhile rustIsWhitespace⟩

/-- Spanned::trim_end: drop trailing whitespace and retract the span end by
the number of removed bytes. -/
def Spanned.trim_end (s : Spanned (List Char)) : Option (Spanned (List Char)) :=
  match s.span.dec_col_end (utf8Len s.content - utf8Len (trimEndChars s.content)) with
  | none => none
  | some span => some ⟨span, trimEndChars s.content⟩

/-- Spanned::trim = trim_start followed by trim_end. -/
def Spanned.trim (s : Spanned (List Char)) : Option (Spanned (List Char)) :=
  match s.trim_start with
  | none => none
  | some t => t.trim_end

/-! The Spanned::split iterator. -/

/-- Rust str::char_indices starting from byte offset base: the characters of
the string, each paired with its byte index. -/
def charIndicesFrom (base : Nat) : List Char → List (Nat × Char)
  | [] => []
  | c :: rest => (base, c) :: charIndicesFrom (base + charUtf8Size c) rest

/-- A byte-range slice l[i..j] of a string (Rust str indexing): none when
i > j or either end is not a char boundary (a panic). -/
def byteSlice (l : List Char) (i j : Nat) : Option (List Char) :=
  if j < i then none
  else do
    let (_, rest) ← splitAtBytePos l i
    let (seg, _) ← splitAtBytePos rest (j - i)
    some seg

/-- One step stream of Spanned::split (span.rs): walk the char_indices
(already chained with the sentinel pair (content byte length, needle));
at each needle occurrence slice the segment content[start..i], give it the
span inc_col_start(start).set_col_end_relative_to_start(segment byte len),
and continue with start = i + 1. -/
def splitGo (s : Spanned (List Char)) (needle : Char) :
    List (Nat × Char) → Nat → Option (List (Spanned (List Char)))
  | [], _ => some []
  | (i, c) :: rest, start =>
    if c == needle then do
      let content ← byteSlice s.content start i
      let sp1 ← s.span.inc_col_start start
      let sp ← sp1.set_col_end_relative_to_start (utf8Len content)
      let tail ← splitGo s needle rest (i + 1)
      some (⟨sp, content⟩ :: tail)
    else splitGo s needle rest start

/-- Spanned::split: the sequence the iterator yields, none when some step of
the iteration panics. -/
def Spanned.split (s : Spanned (List Char)) (needle : Char) :
    Option (List (Spanned (List Char))) :=
  splitGo s needle (charIndicesFrom 0 s.content ++ [(utf8Len s.content, needle)]) 0

/-- The segments of a string delimited by a character (specification side,
following the spec's iterate_split wording): splitting "a=b" at the equals
sign gives the two segments a and b, with the delimiter excluded. -/
def splitSpec (needle : Char) : List Char → List (List Char)
  | [] => [[]]
  | c :: rest =>
    if c = needle then [] :: splitSpec needle rest
    else
      match splitSpec needle rest with
      | [] => [[c]]
      | seg :: segs => (c :: seg) :: segs

/-- The located segment starting at byte offset off inside span sp. -/
def segOut (sp : Span) (off : Nat) (seg : List Char) : Spanned (List Char) :=
  ⟨⟨sp.file, sp.bytes_start + off, sp.bytes_start + off + utf8Len seg⟩, seg⟩

/-- The located segments the spec prescribes for iterate_split: each segment
carries the exact byte range of its text, and the segment following a
delimiter starts one delimiter-encoded-length past the previous segment. -/
def withOffsets (sp : Span) (needle : Char) : Nat → List (List Char) → List (Spanned (List Char))
  | _, [] => []
  | off, seg :: segs =>
    segOut sp off seg :: withOffsets sp needle (off + utf8Len seg + charUtf8Size needle) segs

/-! The diagnostic chain (error.rs). A frame is ErrorData { span, source,
data }; the data value only ever reaches the output through its textual
rendering (data.to_string()), so it is modelled as that string. -/

/-- The chained error type: span and message of the outermost frame, plus the
optional wrapped cause (error.rs, struct Error / ErrorData). -/
inductive Error where
  | mk (span : Span) (source : Option Error) (data : String)

def Error.span : Error → Span
  | .mk sp _ _ => sp

def Error.data : Error → String
  | .mk _ _ d => d

def Error.source : Error → Option Error
  | .mk _ src _ => src

/-- Error::new: a leaf frame at the context value's span. -/
def Error.new (context : Spanned String) : Error :=
  .mk context.span none context.content

/-- Error::wrap: a new outermost frame whose cause is this error. -/
def Error.wrap (e : Error) (context : Spanned String) : Error :=
  .mk context.span (some e) context.content

/-- Error::wrap_str: as wrap, with the context held through its Display
rendering (DisplayData); in this model both collapse to the same frame. -/
def Error.wrap_str (e : Error) (context : Spanned String) : Error :=
  .mk context.span (some e) context.content

/-- Modelled from the spec: Error::new_str is called from span.rs and
error/context.rs but its definition is not among the repository files given;
per the spec it is the leaf-from-message constructor, "frame with no cause"
whose location and message come from the located context (the string-only
variant of the leaf constructor). -/
def Error.new_str (context : Spanned String) : Error :=
  .mk context.span none context.content

/-- Error::sources: the iterator over the frames below the outermost one,
outermost cause first (SourceIter). -/
def Error.sources : Error → List Error
  | .mk _ none _ => []
  | .mk _ (some e) _ => e :: e.sources

/-- Spanned::parse, generic over the target type through its FromStr
instance, modelled as an explicit fromStr function: on success the parsed
content under the unchanged span, on failure Error::new_str of this value
with its content replaced by the failure's text. -/
def Spanned.parse {T : Type} (fromStr : String → Except String T)
    (s : Spanned String) : Except Error (Spanned T) :=
  match fromStr s.content with
  | .error e => .error (Error.new_str ⟨s.span, e⟩)
  | .ok v => .ok ⟨s.span, v⟩

/-! The rendered annotation document (impl Debug for Error). The external
annotate_snippets engine is opaque: the model stops at the document handed to
it, Level::Error.title(..).snippets(..). File reads are modelled through an
environment function fs; the render call unwraps every read, so the model
describes the runs in which each referenced file is readable. -/

/-- One annotated byte range of a snippet: the primary annotation carries no
label, the secondary ones carry the frame's message. -/
structure Annot where
  range_start : Nat
  range_end : Nat
  label : Option String
deriving DecidableEq

/-- One snippet block of the document: a file's text, its origin label, and
its annotations. -/
structure Snippet where
  source : String
  origin : String
  fold : Bool
  annotations : List Annot
deriving DecidableEq

/-- The document handed to the rendering engine. -/
structure Message where
  title : String
  snippets : List Snippet
deriving DecidableEq

/-- The per-file label list the renderer accumulates into its files map: for
each frame of srcs whose span lies in the given file, its byte range and
message, in chain order. -/
def labelsFor (file : String) (srcs : List Error) : List Annot :=
  (srcs.filter fun e => e.span.file == file).map fun e =>
    ⟨e.span.bytes_start, e.span.bytes_end, some e.data⟩

/-- impl Debug for Error: group the source frames by file, then emit the main
snippet (outermost frame's file, its span as the unlabelled primary
annotation, the same-file source frames folded in), followed by one snippet
per source frame whose file differs from the main one, carrying that file's
whole label list. -/
def Error.render (fs : String → String) (err : Error) : Message :=
  let srcs := err.sources
  let mainFile := err.span.file
  let mainSnippet : Snippet :=
    { source := fs mainFile, origin := mainFile, fold := true,
      annotations :=
        ⟨err.span.bytes_start, err.span.bytes_end, none⟩ :: labelsFor mainFile srcs }
  { title := err.data,
    snippets := mainSnippet :: srcs.filterMap fun e =>
      if e.span.file == mainFile then none
      else some { source := fs e.span.file, origin := e.span.file, fold := true,
                  annotations := labelsFor e.span.file srcs } }

/-! Textual rendering of a Span (impl Display for Span). -/

/-- The shapes the Display implementation can print: the dummy sentinel text,
the bare file path, file:line, or file:line:column. -/
inductive SpanDisplay where
  | dummyText
  | fileOnly (file : String)
  | fileLine (file : String) (line : Nat)
  | fileLineCol (file : String) (line : Nat) (col : Nat)
deriving DecidableEq

/-- Drop one trailing carriage return (the \r of a \r\n terminator). -/
def stripCR (l : List Char) : List Char :=
  match l.getLast? with
  | some c => if c = '\x0d' then l.dropLast else l
  | none => l

/-- The lines of a string with their starting byte offsets, as
Spanned::lines yields them (bstr lines: terminated by \n, the terminator and
a preceding \r stripped; a last line without terminator kept as is; no line
after a final terminator). lineOff is the byte offset at which the current
line began, pos the byte offset of the next character, acc the current line
so far, reversed. -/
def linesGo (lineOff pos : Nat) (acc : List Char) : List Char → List (Nat × List Char)
  | [] => if acc.isEmpty then [] else [(lineOff, acc.reverse)]
  | c :: rest =>
    if c = '\n' then
      (lineOff, stripCR acc.reverse) :: linesGo (pos + 1) (pos + 1) [] rest
    else
      linesGo lineOff (pos + charUtf8Size c) (c :: acc) rest

/-- impl Display for Span: the sentinel text for an empty path; otherwise
re-read the file (environment fs, none = io::Error), find the line whose byte
range contains the span start, and within it the character whose byte offset
is exactly the span start; print as much of file:line:column as was found.
The read delivers a str, so the invalid-utf8 fallback of the code cannot
trigger and does not appear in the model. -/
def Span.display (fs : String → Option String) (s : Span) : SpanDisplay :=
  if s.file = "" then .dummyText
  else
    match fs s.file with
    | none => .fileOnly s.file
    | some contents =>
      let ls := linesGo 0 0 [] contents.toList
      match ls.enum.find? fun p =>
          p.2.1 ≤ s.bytes_start && s.bytes_start < p.2.1 + utf8Len p.2.2 with
      | none => .fileOnly s.file
      | some (l, lineOff, line) =>
        match (charIndicesFrom lineOff line).findIdx? fun p => p.1 == s.bytes_start with
        | none => .fileLine s.file (l + 1)
        | some c => .fileLineCol s.file (l + 1) (c + 1)

/-! Helper lemmas about the span arithmetic. -/

theorem Span.inc_col_start_eq_some {s : Span} {n : Nat} (hwf : s.bytes_end ≤ U32_MAX)
    (h : s.bytes_start + n ≤ s.bytes_end) :
    s.inc_col_start n = some ⟨s.file, s.bytes_start + n, s.bytes_end⟩ := by
  unfold Span.inc_col_start
  have h1 : ¬ U32_MAX < n := by omega
  have h2 : ¬ U32_MAX < s.bytes_start + n := by omega
  simp [h1, h2, h]

theorem Span.set_col_end_eq_some {s : Span} {n : Nat} (hwf : s.bytes_end ≤ U32_MAX)
    (h : s.bytes_start + n ≤ s.bytes_end) :
    s.set_col_end_relative_to_start n = some ⟨s.file, s.bytes_start, s.bytes_start + n⟩ := by
  unfold Span.set_col_end_relative_to_start
  have h1 : ¬ U32_MAX < n := by omega
  have h2 : ¬ U32_MAX < s.bytes_start + n := by omega
  simp [h1, h2, h]

theorem Span.dec_col_end_eq_some {s : Span} {n : Nat} (hwf : s.bytes_end ≤ U32_MAX)
    (h : s.bytes_start + n ≤ s.bytes_end) :
    s.dec_col_end n = some ⟨s.file, s.bytes_start, s.bytes_end - n⟩ := by
  unfold Span.dec_col_end
  have h1 : ¬ U32_MAX < n := by omega
  have h2 : ¬ s.bytes_end < n := by omega
  have h3 : s.bytes_start ≤ s.bytes_end - n := by omega
  simp [h1, h2, h3]

theorem Span.inc_col_start_none_iff {s : Span} {n : Nat} (hwf : s.bytes_end ≤ U32_MAX) :
    s.inc_col_start n = none ↔ s.bytes_end < s.bytes_start + n := by
  unfold Span.inc_col_start
  split
  · simp; omega
  split
  · simp; omega
  split
  · simp; omega
  · simp; omega

theorem Span.set_col_end_none_iff {s : Span} {n : Nat} (hwf : s.bytes_end ≤ U32_MAX) :
    s.set_col_end_relative_to_start n = none ↔ s.bytes_end < s.bytes_start + n := by
  unfold Span.set_col_end_relative_to_start
  split
  · simp; omega
  split
  · simp; omega
  split
  · simp; omega
  · simp; omega

theorem Span.dec_col_end_none_iff {s : Span} {n : Nat} (hwf : s.bytes_end ≤ U32_MAX) :
    s.dec_col_end n = none ↔ s.bytes_end < s.bytes_start + n := by
  unfold Span.dec_col_end
  split
  · simp; omega
  split
  · simp; omega
  split
  · simp; omega
  · simp; omega

theorem Span.inc_col_start_some_inv {s : Span} {n : Nat} {r : Span}
    (h : s.inc_col_start n = some r) :
    r = ⟨s.file, s.bytes_start + n, s.bytes_end⟩
    ∧ s.bytes_start + n ≤ s.bytes_end ∧ s.bytes_start + n ≤ U32_MAX := by
  unfold Span.inc_col_start at h
  split at h
  · exact absurd h (by simp)
  split at h
  · exact absurd h (by simp)
  split at h
  · cases h
    refine ⟨rfl, by omega, by omega⟩
  · exact absurd h (by simp)

theorem Span.dec_col_end_some_inv {s : Span} {n : Nat} {r : Span}
    (h : s.dec_col_end n = some r) :
    r = ⟨s.file, s.bytes_start, s.bytes_end - n⟩
    ∧ n ≤ s.bytes_end ∧ s.bytes_start ≤ s.bytes_end - n := by
  unfold Span.dec_col_end at h
  split at h
  · exact absurd h (by simp)
  split at h
  · exact absurd h (by simp)
  split at h
  · cases h
    refine ⟨rfl, by omega, by omega⟩
  · exact absurd h (by simp)

/-! Claim theorems. -/

/-- C4: every Span boundary-arithmetic operation enforces start <= end by a
fatal precondition failure: inc_col_start(n) panics exactly when
start + n > end and otherwise replaces start by start + n; dec_col_end(n)
panics exactly when end - n < start and otherwise replaces end by end - n;
set_col_end_relative_to_start(n) panics exactly when start + n > end and
otherwise sets end = start + n. Under the stated precondition the panic
branch is unreachable and the result satisfies start <= end. (The span is a
real u32 span: end fits in u32.) -/
theorem span_arith_enforces_start_le_end (s : Span) (n : Nat)
    (hwf : s.bytes_end ≤ U32_MAX) :
    (s.inc_col_start n = none ↔ s.bytes_end < s.bytes_start + n)
    ∧ (s.bytes_start + n ≤ s.bytes_end →
        s.inc_col_start n = some ⟨s.file, s.bytes_start + n, s.bytes_end⟩
        ∧ s.bytes_start + n ≤ s.bytes_end)
    ∧ (s.dec_col_end n = none ↔ s.bytes_end < s.bytes_start + n)
    ∧ (s.bytes_start + n ≤ s.bytes_end →
        s.dec_col_end n = some ⟨s.file, s.bytes_start, s.bytes_end - n⟩
        ∧ s.bytes_start ≤ s.bytes_end - n)
    ∧ (s.set_col_end_relative_to_start n = none ↔ s.bytes_end < s.bytes_start + n)
    ∧ (s.bytes_start + n ≤ s.bytes_end →
        s.set_col_end_relative_to_start n = some ⟨s.file, s.bytes_start, s.bytes_start + n⟩
        ∧ s.bytes_start ≤ s.bytes_start + n) :=
  ⟨Span.inc_col_start_none_iff hwf,
   fun h => ⟨Span.inc_col_start_eq_some hwf h, h⟩,
   Span.dec_col_end_none_iff hwf,
   fun h => ⟨Span.dec_col_end_eq_some hwf h, by omega⟩,
   Span.set_col_end_none_iff hwf,
   fun h => ⟨Span.set_col_end_eq_some hwf h, by omega⟩⟩

/-- Witness for C4 at a concrete span: file f.txt, bytes 2..10, n = 3. -/
theorem span_arith_enforces_start_le_end_witness :
    ((Span.inc_col_start ⟨"f.txt", 2, 10⟩ 3 = none ↔ (10 : Nat) < 2 + 3)
    ∧ ((2 : Nat) + 3 ≤ 10 →
        Span.inc_col_start ⟨"f.txt", 2, 10⟩ 3 = some ⟨"f.txt", 2 + 3, 10⟩
        ∧ (2 : Nat) + 3 ≤ 10)
    ∧ (Span.dec_col_end ⟨"f.txt", 2, 10⟩ 3 = none ↔ (10 : Nat) < 2 + 3)
    ∧ ((2 : Nat) + 3 ≤ 10 →
        Span.dec_col_end ⟨"f.txt", 2, 10⟩ 3 = some ⟨"f.txt", 2, 10 - 3⟩
        ∧ (2 : Nat) ≤ 10 - 3)
    ∧ (Span.set_col_end_relative_to_start ⟨"f.txt", 2, 10⟩ 3 = none ↔ (10 : Nat) < 2 + 3)
    ∧ ((2 : Nat) + 3 ≤ 10 →
        Span.set_col_end_relative_to_start ⟨"f.txt", 2, 10⟩ 3 = some ⟨"f.txt", 2, 2 + 3⟩
        ∧ (2 : Nat) ≤ 2 + 3)) :=
  span_arith_enforces_start_le_end ⟨"f.txt", 2, 10⟩ 3 (by decide)

/-- C9: Spanned::map leaves the span unchanged and applies f to the
content. -/
theorem map_keeps_span {T U : Type} (s : Spanned T) (f : T → U) :
    (s.map f).span = s.span ∧ (s.map f).content = f s.content :=
  ⟨rfl, rfl⟩

/-- C10: Span::is_dummy looks only at the byte range, not at the file: it is
true exactly when both offsets are u32::MAX, it holds for a span carrying a
real file path, and such a span is not equal to the default dummy span. -/
theorem is_dummy_ignores_file :
    (∀ s : Span, s.is_dummy = true ↔ s.bytes_start = U32_MAX ∧ s.bytes_end = U32_MAX)
    ∧ Span.is_dummy ⟨"a.txt", U32_MAX, U32_MAX⟩ = true
    ∧ (⟨"a.txt", U32_MAX, U32_MAX⟩ : Span) ≠ Span.default := by
  refine ⟨fun s => ?_, by decide, by decide⟩
  simp [Span.is_dummy]

/-- C7: the default (dummy) span is structurally equal only to itself under
the derived equality, is_dummy holds for it, and its Display rendering is
the sentinel text whatever the file system holds, never a file, file:line or
file:line:column rendering. -/
theorem dummy_span_unique_and_renders_sentinel :
    (∀ s : Span, Span.beq s Span.default = true ↔ s = Span.default)
    ∧ Span.default.is_dummy = true
    ∧ ∀ fs : String → Option String, Span.display fs Span.default = SpanDisplay.dummyText := by
  refine ⟨fun s => ?_, by decide, fun fs => rfl⟩
  cases s
  simp [Span.beq, Span.default, Span.mk.injEq, and_assoc]

/-- C1: the code evaluated at the spec's own example. split_once("=") on
content "foo=bar" at a.txt[0,7) returns the left half "foo" with span
[0,4) - dec_col_end(b.len()) removes only the right half's bytes, so the
delimiter byte stays inside the left span, where the spec requires [0,3)
(each half's location excluding the delimiter). The right half is [4,7) as
specified, and the delimiter-absent case returns None. -/
theorem split_once_left_span_keeps_delimiter :
    Spanned.split_once ⟨⟨"a.txt", 0, 7⟩, "foo=bar".toList⟩ "=".toList
      = some (⟨⟨"a.txt", 0, 4⟩, "foo".toList⟩, ⟨⟨"a.txt", 4, 7⟩, "bar".toList⟩)
    ∧ Spanned.split_once ⟨⟨"a.txt", 0, 7⟩, "foobar".toList⟩ "=".toList = none := by
  exact ⟨by decide, by decide⟩

/-- A chain of one leaf and two wraps: the leaf and the middle frame live in
file b.txt, the outermost frame in file a.txt. -/
def chainTwoWraps : Error :=
  ((Error.new ⟨⟨"b.txt", 0, 1⟩, "kaboom"⟩).wrap_str ⟨⟨"b.txt", 2, 3⟩, "mid"⟩).wrap_str
    ⟨⟨"a.txt", 0, 1⟩, "outer"⟩

/-- C6: the code evaluated at a chain of N = 2 wraps whose two inner frames
share the non-main file b.txt. The chain does have N + 1 = 3 frames (sources
yields 2), but the rendered document emits a separate b.txt snippet per
source frame - two duplicate blocks - each carrying both b.txt annotations,
so the document holds 1 + 2 + 2 = 5 annotations instead of the claimed
N + 1 = 3 with same-file frames merged into one block. -/
theorem render_duplicates_same_file_blocks :
    chainTwoWraps.sources.length = 2
    ∧ (chainTwoWraps.render fun _ => "").snippets.map Snippet.origin
        = ["a.txt", "b.txt", "b.txt"]
    ∧ (chainTwoWraps.render fun _ => "").snippets.map (fun sn => sn.annotations.length)
        = [1, 2, 2] := by
  refine ⟨rfl, rfl, rfl⟩

/-- C5: parse returns Ok exactly when the content parses (the two
implications cover the dichotomy of the FromStr result); the Ok result
carries the input's span unchanged, and the failure is a single leaf frame
(no cause, so sources is empty) whose location is exactly the input's span
and whose message is the parse failure's text. -/
theorem parse_keeps_span_and_fails_as_leaf {T : Type}
    (fromStr : String → Except String T) (s : Spanned String) :
    (∀ v, fromStr s.content = .ok v → Spanned.parse fromStr s = .ok ⟨s.span, v⟩)
    ∧ (∀ e, fromStr s.content = .error e →
        ∃ err, Spanned.parse fromStr s = .error err
          ∧ err.span = s.span ∧ err.data = e ∧ err.sources = []) := by
  constructor
  · intro v h
    simp [Spanned.parse, h]
  · intro e h
    exact ⟨Error.new_str ⟨s.span, e⟩, by simp [Spanned.parse, h], rfl, rfl, rfl⟩

/-! Lemmas about byte lengths, boundaries and byte-position splitting. -/

theorem charUtf8Size_pos (c : Char) : 1 ≤ charUtf8Size c := by
  unfold charUtf8Size
  repeat' split
  all_goals omega

theorem utf8Len_append (a b : List Char) : utf8Len (a ++ b) = utf8Len a + utf8Len b := by
  induction a with
  | nil => simp [utf8Len]
  | cons c t ih => simp [utf8Len, ih]; omega

theorem splitAtBytePos_of_boundary :
    ∀ (l : List Char) (pos : Nat), isCharBoundary l pos = true →
      ∃ a b, splitAtBytePos l pos = some (a, b) ∧ a ++ b = l ∧ utf8Len a = pos := by
  intro l
  induction l with
  | nil =>
    intro pos h
    by_cases hp : pos = 0
    · subst hp
      exact ⟨[], [], by simp [splitAtBytePos], rfl, rfl⟩
    · rw [isCharBoundary, if_neg hp] at h
      exact absurd h (by simp)
  | cons c rest ih =>
    intro pos h
    by_cases hp : pos = 0
    · subst hp
      exact ⟨[], c :: rest, by simp [splitAtBytePos], rfl, rfl⟩
    · rw [isCharBoundary, if_neg hp] at h
      by_cases hlt : pos < charUtf8Size c
      · rw [if_pos hlt] at h
        exact absurd h (by simp)
      · rw [if_neg hlt] at h
        obtain ⟨a, b, hsplit, hab, hlen⟩ := ih (pos - charUtf8Size c) h
        refine ⟨c :: a, b, ?_, by simp [hab], ?_⟩
        · rw [splitAtBytePos, if_neg hp, if_neg hlt, hsplit]
          rfl
        · simp [utf8Len, hlen]
          omega

/-- C2: for a Spanned str whose span length equals its content byte length
and a char-boundary position pos within it, split_at(pos) returns two halves
whose contents concatenate back to the input content, whose spans are
[start, start + pos) and [start + pos, end), partitioning the input span with
the left end equal to the right start. -/
theorem split_at_partitions (s : Spanned (List Char)) (pos : Nat)
    (hlen : s.span.bytes_end = s.span.bytes_start + utf8Len s.content)
    (hwf : s.span.bytes_end ≤ U32_MAX)
    (hb : isCharBoundary s.content pos = true) :
    ∃ a b, s.split_at pos = some (a, b)
      ∧ a.content ++ b.content = s.content
      ∧ a.span = ⟨s.span.file, s.span.bytes_start, s.span.bytes_start + pos⟩
      ∧ b.span = ⟨s.span.file, s.span.bytes_start + pos, s.span.bytes_end⟩
      ∧ a.span.bytes_end = b.span.bytes_start := by
  obtain ⟨a, b, hsplit, hab, hlena⟩ := splitAtBytePos_of_boundary s.content pos hb
  subst hlena
  have hcontent := utf8Len_append a b
  rw [hab] at hcontent
  have hset := Span.set_col_end_eq_some (s := s.span) (n := utf8Len a) hwf (by omega)
  have hinc := Span.inc_col_start_eq_some (s := s.span) (n := utf8Len a) hwf (by omega)
  refine ⟨⟨⟨s.span.file, s.span.bytes_start, s.span.bytes_start + utf8Len a⟩, a⟩,
          ⟨⟨s.span.file, s.span.bytes_start + utf8Len a, s.span.bytes_end⟩, b⟩,
          ?_, hab, rfl, rfl, rfl⟩
  simp [Spanned.split_at, hsplit, hset, hinc]

/-- Witness for C2: content "foo=bar" at a.txt[0,7), pos = 3. -/
theorem split_at_partitions_witness :
    ∃ a b, Spanned.split_at ⟨⟨"a.txt", 0, 7⟩, "foo=bar".toList⟩ 3 = some (a, b)
      ∧ a.content ++ b.content = "foo=bar".toList
      ∧ a.span = ⟨"a.txt", 0, 0 + 3⟩
      ∧ b.span = ⟨"a.txt", 0 + 3, 7⟩
      ∧ a.span.bytes_end = b.span.bytes_start :=
  split_at_partitions ⟨⟨"a.txt", 0, 7⟩, "foo=bar".toList⟩ 3 (by decide) (by decide) (by decide)

/-! Lemmas about whitespace trimming. -/

theorem dropWhile_length_le (p : Char → Bool) (l : List Char) :
    (List.dropWhile p l).length ≤ l.length := by
  induction l with
  | nil => simp
  | cons c t ih =>
    cases hc : p c with
    | true =>
      simp only [List.dropWhile, hc]
      exact Nat.le_succ_of_le ih
    | false =>
      simp only [List.dropWhile, hc]
      exact Nat.le_refl _

theorem head_not_p_of_dropWhile_eq_self {p : Char → Bool} {c : Char} {t : List Char}
    (h : List.dropWhile p (c :: t) = c :: t) : p c = false := by
  cases hc : p c with
  | false => rfl
  | true =>
    exfalso
    simp only [List.dropWhile, hc] at h
    have hle := dropWhile_length_le p t
    rw [h] at hle
    simp at hle

theorem dropWhile_idem (p : Char → Bool) (l : List Char) :
    List.dropWhile p (List.dropWhile p l) = List.dropWhile p l := by
  induction l with
  | nil => rfl
  | cons c t ih =>
    cases hc : p c with
    | true => simp only [List.dropWhile, hc, ih]
    | false => simp only [List.dropWhile, hc]

theorem dropWhile_eq_self_of_append {p : Char → Bool} {y z : List Char}
    (h : List.dropWhile p (y ++ z) = y ++ z) : List.dropWhile p y = y := by
  cases y with
  | nil => rfl
  | cons c t =>
    have hc : p c = false :=
      head_not_p_of_dropWhile_eq_self (t := t ++ z) (by simpa using h)
    simp only [List.dropWhile, hc]

theorem trimEndChars_idem (l : List Char) :
    trimEndChars (trimEndChars l) = trimEndChars l := by
  unfold trimEndChars
  rw [List.reverse_reverse, dropWhile_idem]

theorem trimEndChars_append_eq (l : List Char) :
    trimEndChars l ++ (List.takeWhile rustIsWhitespace l.reverse).reverse = l := by
  unfold trimEndChars
  rw [← List.reverse_append, List.takeWhile_append_dropWhile, List.reverse_reverse]

theorem dropWhile_trimEndChars_eq_self {l : List Char}
    (h : List.dropWhile rustIsWhitespace l = l) :
    List.dropWhile rustIsWhitespace (trimEndChars l) = trimEndChars l := by
  have hsplit := trimEndChars_append_eq l
  exact dropWhile_eq_self_of_append (z := (List.takeWhile rustIsWhitespace l.reverse).reverse)
    (by rw [hsplit]; exact h)

theorem Span.inc_col_start_zero {s : Span} (h1 : s.bytes_start ≤ U32_MAX)
    (h2 : s.bytes_start ≤ s.bytes_end) : s.inc_col_start 0 = some s := by
  unfold Span.inc_col_start
  have a1 : ¬ U32_MAX < (0 : Nat) := by omega
  simp [a1]
  exact ⟨h1, h2⟩

theorem Span.dec_col_end_zero {s : Span} (h2 : s.bytes_start ≤ s.bytes_end) :
    s.dec_col_end 0 = some s := by
  unfold Span.dec_col_end
  have a1 : ¬ U32_MAX < (0 : Nat) := by omega
  simp [a1]
  exact h2

/-- A located value with no leading and no trailing whitespace, whose span
start fits in u32 and does not pass its end, trims to itself. -/
theorem trim_of_trimmed (file : String) (st en : Nat) (c : List Char)
    (hst : st ≤ U32_MAX) (hse : st ≤ en)
    (hdrop : List.dropWhile rustIsWhitespace c = c)
    (htrim : trimEndChars c = c) :
    Spanned.trim ⟨⟨file, st, en⟩, c⟩ = some ⟨⟨file, st, en⟩, c⟩ := by
  have hz1 : Span.inc_col_start ⟨file, st, en⟩ 0 = some ⟨file, st, en⟩ :=
    Span.inc_col_start_zero hst hse
  have hz2 : Span.dec_col_end ⟨file, st, en⟩ 0 = some ⟨file, st, en⟩ :=
    Span.dec_col_end_zero hse
  simp only [Spanned.trim, Spanned.trim_start, Spanned.trim_end, hdrop, htrim,
    Nat.sub_self, hz1, hz2]

/-- C3: trim is idempotent - whenever trimming succeeds (the boundary
arithmetic does not trap), trimming the result again succeeds and returns it
unchanged - and the span boundaries move by exactly the number of removed
whitespace bytes: the start advances by the byte length of the removed
leading whitespace, the end retracts by the byte length of the trailing
whitespace removed from the remaining content. -/
theorem trim_idempotent (s t : Spanned (List Char)) (h : s.trim = some t) :
    t.trim = some t
    ∧ t.content = trimEndChars (s.content.dropWhile rustIsWhitespace)
    ∧ t.span.bytes_start
        = s.span.bytes_start
          + (utf8Len s.content - utf8Len (s.content.dropWhile rustIsWhitespace))
    ∧ t.span.bytes_end
        = s.span.bytes_end
          - (utf8Len (s.content.dropWhile rustIsWhitespace)
              - utf8Len (trimEndChars (s.content.dropWhile rustIsWhitespace))) := by
  unfold Spanned.trim at h
  split at h
  · exact absurd h (by simp)
  rename_i t1 heq
  unfold Spanned.trim_start at heq
  split at heq
  · exact absurd heq (by simp)
  rename_i sp1 hinc
  cases heq
  obtain ⟨hsp1, hle1, hmax1⟩ := Span.inc_col_start_some_inv hinc
  subst hsp1
  unfold Spanned.trim_end at h
  split at h
  · exact absurd h (by simp)
  rename_i sp2 hdec
  cases h
  obtain ⟨hsp2, hn2, hle2⟩ := Span.dec_col_end_some_inv hdec
  subst hsp2
  have hA : List.dropWhile rustIsWhitespace
      (trimEndChars (List.dropWhile rustIsWhitespace s.content))
      = trimEndChars (List.dropWhile rustIsWhitespace s.content) :=
    dropWhile_trimEndChars_eq_self (dropWhile_idem rustIsWhitespace s.content)
  refine ⟨?_, rfl, rfl, rfl⟩
  exact trim_of_trimmed s.span.file
    (s.span.bytes_start
      + (utf8Len s.content - utf8Len (List.dropWhile rustIsWhitespace s.content)))
    (s.span.bytes_end
      - (utf8Len (List.dropWhile rustIsWhitespace s.content)
          - utf8Len (trimEndChars (List.dropWhile rustIsWhitespace s.content))))
    (trimEndChars (List.dropWhile rustIsWhitespace s.content))
    hmax1 hle2 hA (trimEndChars_idem _)

/-- Witness for C3: content "  a  " at a.txt[0,5) trims to "a" at [2,3), and
trimming that again returns it unchanged. -/
theorem trim_idempotent_witness :
    Spanned.trim ⟨⟨"a.txt", 2, 3⟩, "a".toList⟩ = some ⟨⟨"a.txt", 2, 3⟩, "a".toList⟩ :=
  (trim_idempotent ⟨⟨"a.txt", 0, 5⟩, "  a  ".toList⟩ ⟨⟨"a.txt", 2, 3⟩, "a".toList⟩
    (by decide)).1

/-! Lemmas for the split iterator. -/

theorem splitAtBytePos_append : ∀ (a b : List Char),
    splitAtBytePos (a ++ b) (utf8Len a) = some (a, b) := by
  intro a
  induction a with
  | nil =>
    intro b
    rw [List.nil_append, show utf8Len ([] : List Char) = 0 from rfl, splitAtBytePos.eq_def]
    simp
  | cons c t ih =>
    intro b
    have hpos := charUtf8Size_pos c
    have hne : ¬ (utf8Len (c :: t) = 0) := by
      simp only [utf8Len]; omega
    have hlt : ¬ (utf8Len (c :: t) < charUtf8Size c) := by
      simp only [utf8Len]; omega
    rw [List.cons_append, splitAtBytePos, if_neg hne, if_neg hlt]
    have harg : utf8Len (c :: t) - charUtf8Size c = utf8Len t := by
      simp only [utf8Len]; omega
    rw [harg, ih b]
    rfl

theorem byteSlice_mid (u w z : List Char) :
    byteSlice (u ++ w ++ z) (utf8Len u) (utf8Len u + utf8Len w) = some w := by
  unfold byteSlice
  have hj : ¬ (utf8Len u + utf8Len w < utf8Len u) := by omega
  have h1 : splitAtBytePos (u ++ (w ++ z)) (utf8Len u) = some (u, w ++ z) :=
    splitAtBytePos_append u (w ++ z)
  have harg : utf8Len u + utf8Len w - utf8Len u = utf8Len w := by omega
  rw [if_neg hj, List.append_assoc, h1]
  simp [harg, splitAtBytePos_append w z]

theorem splitSpec_no_needle {needle : Char} : ∀ {w : List Char},
    (∀ c ∈ w, c ≠ needle) → splitSpec needle w = [w] := by
  intro w
  induction w with
  | nil => intro _; rfl
  | cons c t ih =>
    intro hw
    have hc : ¬ (c = needle) := hw c (by simp)
    have ht := ih fun x hx => hw x (by simp [hx])
    rw [splitSpec, if_neg hc, ht]

theorem splitSpec_append_needle {needle : Char} : ∀ {w rest : List Char},
    (∀ c ∈ w, c ≠ needle) →
    splitSpec needle (w ++ needle :: rest) = w :: splitSpec needle rest := by
  intro w
  induction w with
  | nil =>
    intro rest _
    rw [List.nil_append, splitSpec, if_pos rfl]
  | cons c t ih =>
    intro rest hw
    have hc : ¬ (c = needle) := hw c (by simp)
    have ht := @ih rest fun x hx => hw x (by simp [hx])
    rw [List.cons_append, splitSpec, if_neg hc, ht]

/-! The split iterator: step lemmas and the covering theorem. -/

theorem splitGo_nil (s : Spanned (List Char)) (needle : Char) (start : Nat) :
    splitGo s needle [] start = some [] := rfl

theorem splitGo_cons_hit (s : Spanned (List Char)) (needle : Char) (i start : Nat)
    (rest : List (Nat × Char)) (seg : List Char) (sp1 sp : Span)
    (tail : List (Spanned (List Char)))
    (h1 : byteSlice s.content start i = some seg)
    (h2 : s.span.inc_col_start start = some sp1)
    (h3 : sp1.set_col_end_relative_to_start (utf8Len seg) = some sp)
    (h4 : splitGo s needle rest (i + 1) = some tail) :
    splitGo s needle ((i, needle) :: rest) start = some (⟨sp, seg⟩ :: tail) := by
  rw [splitGo]
  simp [h1, h2, h3, h4]

theorem splitGo_cons_miss (s : Spanned (List Char)) (needle c : Char) (i start : Nat)
    (rest : List (Nat × Char)) (hc : ¬ (c = needle)) :
    splitGo s needle ((i, c) :: rest) start = splitGo s needle rest start := by
  rw [splitGo]
  simp [hc]

set_option maxHeartbeats 1000000 in
theorem splitGo_covers (sp : Span) (content : List Char) (needle : Char)
    (hsize : needle ∈ content → charUtf8Size needle = 1)
    (hlen : sp.bytes_end = sp.bytes_start + utf8Len content)
    (hwf : sp.bytes_end ≤ U32_MAX) :
    ∀ (v u w : List Char), content = u ++ w ++ v → (∀ c ∈ w, c ≠ needle) →
      splitGo ⟨sp, content⟩ needle
          (charIndicesFrom (utf8Len u + utf8Len w) v ++ [(utf8Len content, needle)])
          (utf8Len u)
        = some (withOffsets sp needle (utf8Len u) (splitSpec needle (w ++ v))) := by
  intro v
  induction v with
  | nil =>
    intro u w hc hw
    rw [List.append_nil] at hc
    have hL : utf8Len content = utf8Len u + utf8Len w := by
      rw [hc, utf8Len_append]
    have hinc : Span.inc_col_start sp (utf8Len u)
        = some ⟨sp.file, sp.bytes_start + utf8Len u, sp.bytes_end⟩ :=
      Span.inc_col_start_eq_some hwf (by omega)
    have hset : Span.set_col_end_relative_to_start
        ⟨sp.file, sp.bytes_start + utf8Len u, sp.bytes_end⟩ (utf8Len w)
        = some ⟨sp.file, sp.bytes_start + utf8Len u,
            sp.bytes_start + utf8Len u + utf8Len w⟩ :=
      Span.set_col_end_eq_some (s := ⟨sp.file, sp.bytes_start + utf8Len u, sp.bytes_end⟩)
        hwf (by simp; omega)
    have hslice : byteSlice content (utf8Len u) (utf8Len content) = some w := by
      rw [hL, hc]
      have := byteSlice_mid u w []
      simpa using this
    rw [show charIndicesFrom (utf8Len u + utf8Len w) ([] : List Char)
          ++ [(utf8Len content, needle)] = [(utf8Len content, needle)] from by
        simp [charIndicesFrom]]
    rw [splitGo_cons_hit ⟨sp, content⟩ needle (utf8Len content) (utf8Len u) []
      w _ _ [] hslice hinc hset (splitGo_nil _ _ _)]
    rw [List.append_nil, splitSpec_no_needle hw]
    simp [withOffsets, segOut]
  | cons c rest ih =>
    intro u w hc hw
    rw [charIndicesFrom, List.cons_append]
    by_cases hcn : c = needle
    · rw [hcn] at hc ⊢
      have hs1 : charUtf8Size needle = 1 := hsize (by rw [hc]; simp)
      have hslice : byteSlice content (utf8Len u) (utf8Len u + utf8Len w) = some w := by
        rw [hc]
        exact byteSlice_mid u w (needle :: rest)
      have hL : utf8Len content = utf8Len u + utf8Len w + (1 + utf8Len rest) := by
        rw [hc]
        simp [utf8Len_append, utf8Len, hs1]
        omega
      have hinc : Span.inc_col_start sp (utf8Len u)
          = some ⟨sp.file, sp.bytes_start + utf8Len u, sp.bytes_end⟩ :=
        Span.inc_col_start_eq_some hwf (by omega)
      have hset : Span.set_col_end_relative_to_start
          ⟨sp.file, sp.bytes_start + utf8Len u, sp.bytes_end⟩ (utf8Len w)
          = some ⟨sp.file, sp.bytes_start + utf8Len u,
              sp.bytes_start + utf8Len u + utf8Len w⟩ :=
        Span.set_col_end_eq_some (s := ⟨sp.file, sp.bytes_start + utf8Len u, sp.bytes_end⟩)
          hwf (by simp; omega)
      have htail := ih (u ++ w ++ [needle]) []
        (by rw [hc]; simp)
        (by simp)
      have hu' : utf8Len (u ++ w ++ [needle]) = utf8Len u + utf8Len w + 1 := by
        simp [utf8Len_append, utf8Len, hs1]
        omega
      rw [hu'] at htail
      simp only [List.nil_append, utf8Len, Nat.add_zero] at htail
      rw [hs1]
      rw [splitGo_cons_hit ⟨sp, content⟩ needle (utf8Len u + utf8Len w) (utf8Len u) _
        w _ _ _ hslice hinc hset htail]
      rw [splitSpec_append_needle hw]
      simp [withOffsets, segOut, hs1]
    · have hw' : ∀ x ∈ w ++ [c], x ≠ needle := by
        intro x hx
        rcases List.mem_append.mp hx with h | h
        · exact hw x h
        · simp at h
          subst h
          exact hcn
      have hrec := ih u (w ++ [c]) (by rw [hc]; simp) hw'
      rw [utf8Len_append w [c]] at hrec
      simp only [utf8Len, Nat.add_zero] at hrec
      rw [splitGo_cons_miss _ _ _ _ _ _ hcn]
      rw [show (w ++ [c]) ++ rest = w ++ (c :: rest) from by simp] at hrec
      rw [show utf8Len u + (utf8Len w + charUtf8Size c)
            = utf8Len u + utf8Len w + charUtf8Size c from by omega] at hrec
      exact hrec

/-- Lemmas locating the panic of Spanned::split for a multi-byte delimiter
that occurs in the content: after the first occurrence at byte index i the
iterator resumes at start = i + 1, a position strictly inside the delimiter
character, and the next slice (at the following occurrence or at the
sentinel) panics. -/
theorem charIndicesFrom_append (x y : List Char) : ∀ b : Nat,
    charIndicesFrom b (x ++ y) = charIndicesFrom b x ++ charIndicesFrom (b + utf8Len x) y := by
  induction x with
  | nil => intro b; simp [charIndicesFrom, utf8Len]
  | cons c t ih =>
    intro b
    rw [List.cons_append, charIndicesFrom, charIndicesFrom, ih (b + charUtf8Size c)]
    rw [show b + charUtf8Size c + utf8Len t = b + utf8Len (c :: t) from by
      simp [utf8Len]; omega]
    rfl

theorem splitGo_skip_prefix (s : Spanned (List Char)) (needle : Char) :
    ∀ (w : List Char) (b start : Nat) (tail : List (Nat × Char)),
      (∀ c ∈ w, c ≠ needle) →
      splitGo s needle (charIndicesFrom b w ++ tail) start = splitGo s needle tail start := by
  intro w
  induction w with
  | nil => intro b start tail _; rfl
  | cons c t ih =>
    intro b start tail hw
    rw [charIndicesFrom, List.cons_append]
    rw [splitGo_cons_miss _ _ _ _ _ _ (hw c (by simp))]
    exact ih (b + charUtf8Size c) start tail fun x hx => hw x (by simp [hx])

theorem splitGo_cons_hit_none (s : Spanned (List Char)) (needle : Char) (i start : Nat)
    (rest : List (Nat × Char))
    (h4 : splitGo s needle rest (i + 1) = none) :
    splitGo s needle ((i, needle) :: rest) start = none := by
  rw [splitGo]
  simp only [beq_self_eq_true, if_true]
  cases hb : byteSlice s.content start i
  · simp [hb]
  · cases hi : s.span.inc_col_start start
    · simp [hb, hi]
    · rename_i seg sp1
      cases hs : sp1.set_col_end_relative_to_start (utf8Len seg)
      · simp [hb, hi, hs]
      · simp [hb, hi, hs, h4]

theorem splitGo_none_of_bad_start (s : Spanned (List Char)) (needle : Char) :
    ∀ (idxs : List (Nat × Char)) (start : Nat),
      splitAtBytePos s.content start = none →
      (∃ i, (i, needle) ∈ idxs) →
      splitGo s needle idxs start = none := by
  intro idxs
  induction idxs with
  | nil =>
    intro start _ hex
    rcases hex with ⟨i, hi⟩
    simp at hi
  | cons p rest ih =>
    intro start hbad hex
    obtain ⟨i0, c0⟩ := p
    by_cases hc : c0 = needle
    · rw [hc, splitGo]
      simp only [beq_self_eq_true, if_true]
      have hbs : byteSlice s.content start i0 = none := by
        unfold byteSlice
        split
        · rfl
        · simp [hbad]
      simp [hbs]
    · rw [splitGo_cons_miss _ _ _ _ _ _ hc]
      apply ih start hbad
      rcases hex with ⟨i, hi⟩
      rcases List.mem_cons.mp hi with h | h
      · cases h
        exact absurd rfl hc
      · exact ⟨i, h⟩

theorem splitAtBytePos_mid_char {needle : Char} (h2 : 2 ≤ charUtf8Size needle) :
    ∀ (u rest : List Char), splitAtBytePos (u ++ needle :: rest) (utf8Len u + 1) = none := by
  intro u
  induction u with
  | nil =>
    intro rest
    rw [show utf8Len ([] : List Char) + 1 = 1 from rfl, List.nil_append, splitAtBytePos]
    rw [if_neg (by omega), if_pos (by omega)]
  | cons c t ih =>
    intro rest
    have hsz := charUtf8Size_pos c
    have hpos : ¬ (utf8Len (c :: t) + 1 = 0) := by
      simp only [utf8Len]
      omega
    have hlt : ¬ (utf8Len (c :: t) + 1 < charUtf8Size c) := by
      simp only [utf8Len]
      omega
    rw [List.cons_append, splitAtBytePos, if_neg hpos, if_neg hlt]
    have harg : utf8Len (c :: t) + 1 - charUtf8Size c = utf8Len t + 1 := by
      simp only [utf8Len]
      omega
    rw [harg, ih rest]
    rfl

theorem first_occurrence {needle : Char} : ∀ {l : List Char}, needle ∈ l →
    ∃ u v, l = u ++ needle :: v ∧ ∀ c ∈ u, c ≠ needle := by
  intro l
  induction l with
  | nil =>
    intro h
    simp at h
  | cons c t ih =>
    intro h
    by_cases hc : c = needle
    · exact ⟨[], t, by rw [hc]; rfl, by simp⟩
    · have ht : needle ∈ t := by
        rcases List.mem_cons.mp h with h1 | h1
        · exact absurd h1.symm hc
        · exact h1
      obtain ⟨u, v, heq, hu⟩ := ih ht
      refine ⟨c :: u, v, by rw [List.cons_append, heq], ?_⟩
      intro x hx
      rcases List.mem_cons.mp hx with h1 | h1
      · rw [h1]
        exact hc
      · exact hu x h1

theorem split_none_of_multibyte_mem (sp : Span) (content : List Char) (needle : Char)
    (h2 : 2 ≤ charUtf8Size needle) (hmem : needle ∈ content) :
    Spanned.split ⟨sp, content⟩ needle = none := by
  obtain ⟨u, v, heq, hu⟩ := first_occurrence hmem
  unfold Spanned.split
  show splitGo ⟨sp, content⟩ needle
    (charIndicesFrom 0 content ++ [(utf8Len content, needle)]) 0 = none
  rw [show charIndicesFrom 0 content
        = charIndicesFrom 0 u ++ charIndicesFrom (0 + utf8Len u) (needle :: v) from by
      rw [show charIndicesFrom 0 content = charIndicesFrom 0 (u ++ needle :: v) from by
        rw [heq]]
      exact charIndicesFrom_append u (needle :: v) 0]
  rw [List.append_assoc, splitGo_skip_prefix ⟨sp, content⟩ needle u 0 0 _ hu]
  rw [charIndicesFrom, List.cons_append]
  rw [show (0 : Nat) + utf8Len u = utf8Len u from by omega]
  apply splitGo_cons_hit_none
  apply splitGo_none_of_bad_start
  · show splitAtBytePos content (utf8Len u + 1) = none
    rw [heq]
    exact splitAtBytePos_mid_char h2 u v
  · exact ⟨utf8Len content, by simp⟩

/-- C8 (amended): for a Spanned str whose span length equals its content byte
length, the split iterator yields exactly the segments of the content
delimited by the character whenever the delimiter is single-byte (UTF-8
encoded length 1) or does not occur in the content - each segment with the
exact byte range of its text inside the input span, the delimiter excluded,
the segment after a delimiter at byte index i starting at span offset i plus
the delimiter's encoded length. When a delimiter of encoded length greater
than 1 does occur in the content, the iteration panics instead of yielding
the segments. -/
theorem split_iter_exact_segments (s : Spanned (List Char)) (needle : Char)
    (hlen : s.span.bytes_end = s.span.bytes_start + utf8Len s.content)
    (hwf : s.span.bytes_end ≤ U32_MAX) :
    (charUtf8Size needle = 1 ∨ needle ∉ s.content →
        s.split needle = some (withOffsets s.span needle 0 (splitSpec needle s.content)))
    ∧ (2 ≤ charUtf8Size needle → needle ∈ s.content → s.split needle = none) := by
  obtain ⟨sp, content⟩ := s
  constructor
  · intro hneedle
    have hsize : needle ∈ content → charUtf8Size needle = 1 := by
      rcases hneedle with h | h
      · exact fun _ => h
      · intro hm
        exact absurd hm h
    have hcov := splitGo_covers sp content needle hsize hlen hwf content [] []
      (by simp) (by simp)
    simpa [Spanned.split, utf8Len, charIndicesFrom] using hcov
  · intro h2 hmem
    exact split_none_of_multibyte_mem sp content needle h2 hmem

/-- Witness for C8: content "foo=bar" at a.txt[0,7) split at the equals
sign (a single-byte delimiter, the first disjunct of the amended claim). -/
theorem split_iter_exact_segments_witness :
    Spanned.split ⟨⟨"a.txt", 0, 7⟩, "foo=bar".toList⟩ '='
      = some (withOffsets ⟨"a.txt", 0, 7⟩ '=' 0 (splitSpec '=' "foo=bar".toList)) :=
  (split_iter_exact_segments ⟨⟨"a.txt", 0, 7⟩, "foo=bar".toList⟩ '='
    (by decide) (by decide)).1 (Or.inl (by decide))

/-- Counterexample to C8 as stated: for the two-byte delimiter character
the iteration panics (the code hard-codes start = i + 1 and then slices at a
non-boundary), instead of yielding located segments: on "aéb" (4 bytes, span
[0,4), satisfying the claim's hypotheses) split yields none rather than any
segment sequence. -/
theorem split_multibyte_needle_panics :
    utf8Len "aéb".toList = 4
    ∧ Spanned.split ⟨⟨"a.txt", 0, 4⟩, "aéb".toList⟩ 'é' = none :=
  ⟨by decide, by decide⟩
